import Mathlib

set_option autoImplicit false

/-!
Shallow embedding of `pet_cli/graphical_analysis.py` (graphical analysis of
PET time-activity curves): the cumulative trapezoidal integrator, the linear
least-squares line fitter, the threshold-index locator, the three method
transforms (Patlak, Logan, alternative Logan) and the name dispatcher.

Arrays of floating-point numbers are embedded as `List ℚ` (exact arithmetic
standing in for IEEE doubles; the division-by-zero / non-finite regime of the
floats is outside this model).  Numpy library primitives used by the source
(`np.diff`, `np.cumsum`, `np.max`, `np.argwhere`, `np.linalg.lstsq`,
elementwise arithmetic, negative-index slicing) are embedded by their
documented contracts.
-/

namespace PETProcessing

/-- `np.diff(xs)`: the list of successive differences `xs[i+1] - xs[i]`. -/
def npDiff (xs : List ℚ) : List ℚ :=
  List.zipWith (fun a b => b - a) xs xs.tail

/-- Running sums of a list starting from an accumulator; helper for `npCumsum`. -/
def cumsumFrom (acc : ℚ) : List ℚ → List ℚ
  | [] => []
  | a :: rest => (acc + a) :: cumsumFrom (acc + a) rest

/-- `np.cumsum(l)`: position `i` holds `l[0] + ... + l[i]`. -/
def npCumsum (l : List ℚ) : List ℚ :=
  cumsumFrom 0 l

/-- `np.max(xs)` for a nonempty array: the maximum element.  (On the empty
array numpy raises; the embedding returns the junk value `0` there, and all
theorems about it assume nonemptiness.) -/
def npMax (xs : List ℚ) : ℚ :=
  xs.foldl max (xs.headD 0)

/-- Elementwise division of two numpy arrays (`a / b`). -/
def ewDiv (a b : List ℚ) : List ℚ :=
  List.zipWith (fun x y => x / y) a b

/-- Python/numpy slicing `xs[t:]` with a possibly negative integer `t`:
a negative start counts from the end of the array, clamped at `0`. -/
def pySliceFrom {α : Type} (t : Int) (xs : List α) : List α :=
  if t < 0 then xs.drop ((xs.length : Int) + t).toNat else xs.drop t.toNat

/-- The per-interval trapezoid areas `dx * (ydata[1:] + ydata[:-1]) / 2.0`
computed inside `cumulative_trapezoidal_integral`. -/
def trapezoidAreas (xdata ydata : List ℚ) : List ℚ :=
  List.zipWith (fun d s => d * s / 2) (npDiff xdata)
    (List.zipWith (· + ·) ydata.tail ydata)

/-- `cumulative_trapezoidal_integral(xdata, ydata, initial)`: the source
allocates `cum_int = np.zeros(len(xdata))`, sets `cum_int[0] = initial` and
`cum_int[1:] = np.cumsum(dx * (ydata[1:] + ydata[:-1]) / 2.0)`.  For the
intended inputs (`len(xdata) = len(ydata) ≥ 1`) that is exactly `initial`
consed onto the running sums of the trapezoid areas. -/
def cumulative_trapezoidal_integral (xdata ydata : List ℚ) (initial : ℚ) : List ℚ :=
  initial :: npCumsum (trapezoidAreas xdata ydata)

/-- `_line_fitting_make_rhs_matrix_from_xdata(xdata)`: the `len(xdata) × 2`
design matrix whose first column is `xdata` and whose second column is ones,
embedded as the list of its rows. -/
def _line_fitting_make_rhs_matrix_from_xdata (xdata : List ℚ) : List (ℚ × ℚ) :=
  xdata.map (fun x => (x, 1))

/-- `np.linalg.lstsq(matrix, ys)[0]` for an `n × 2` matrix given by its rows:
the least-squares solution of `matrix · β ≈ ys`.  When the normal-equation
determinant is nonzero the unique solution is given by Cramer's rule; when the
matrix is rank-deficient (all rows proportional to one vector `v`, or zero)
`lstsq` returns the minimum-norm least-squares solution, which lies on the
line spanned by `v`. -/
def np_linalg_lstsq (rows : List (ℚ × ℚ)) (ys : List ℚ) : ℚ × ℚ :=
  let saa := (rows.map fun r => r.1 * r.1).sum
  let sab := (rows.map fun r => r.1 * r.2).sum
  let sbb := (rows.map fun r => r.2 * r.2).sum
  let say := (List.zipWith (fun r y => r.1 * y) rows ys).sum
  let sby := (List.zipWith (fun r y => r.2 * y) rows ys).sum
  let d := saa * sbb - sab * sab
  if d = 0 then
    match rows.find? (fun r => decide (¬(r.1 = 0 ∧ r.2 = 0))) with
    | none => (0, 0)
    | some v =>
      let vv := v.1 * v.1 + v.2 * v.2
      let ws := rows.map (fun r => (r.1 * v.1 + r.2 * v.2) / vv)
      let sww := (ws.map fun w => w * w).sum
      let swy := (List.zipWith (fun w y => w * y) ws ys).sum
      if sww = 0 then (0, 0)
      else (v.1 * swy / (sww * vv), v.2 * swy / (sww * vv))
  else ((say * sbb - sby * sab) / d, (saa * sby - sab * say) / d)

/-- `fit_line_to_data_using_lls(xdata, ydata)`: builds the design matrix from
`xdata` and feeds it to `np.linalg.lstsq`, returning `(m, b)`. -/
def fit_line_to_data_using_lls (xdata ydata : List ℚ) : ℚ × ℚ :=
  np_linalg_lstsq (_line_fitting_make_rhs_matrix_from_xdata xdata) ydata

/-- `calculate_patlak_x(tac_times, tac_vals)`: cumulative integral of the
activity divided elementwise by the activity. -/
def calculate_patlak_x (tac_times tac_vals : List ℚ) : List ℚ :=
  ewDiv (cumulative_trapezoidal_integral tac_times tac_vals 0) tac_vals

/-- `get_index_from_threshold(times_in_minutes, t_thresh_in_minutes)`:
returns `-1` when the threshold exceeds `np.max(times)`, otherwise
`np.argwhere(times >= t_thresh)[0, 0]`, the first index whose time is at or
above the threshold. -/
def get_index_from_threshold (times_in_minutes : List ℚ) (t_thresh_in_minutes : ℚ) : Int :=
  if t_thresh_in_minutes > npMax times_in_minutes then -1
  else ((times_in_minutes.findIdx fun x => decide (t_thresh_in_minutes ≤ x)) : Int)

/-- `patlak_analysis(input_tac_values, region_tac_values, tac_times_in_minutes,
t_thresh_in_minutes)`: Patlak x/y coordinates sliced from the threshold index
and fed to the line fitter. -/
def patlak_analysis (input_tac_values region_tac_values tac_times_in_minutes : List ℚ)
    (t_thresh_in_minutes : ℚ) : ℚ × ℚ :=
  let t_thresh := get_index_from_threshold tac_times_in_minutes t_thresh_in_minutes
  let patlak_x := calculate_patlak_x tac_times_in_minutes input_tac_values
  let patlak_y := ewDiv region_tac_values input_tac_values
  fit_line_to_data_using_lls (pySliceFrom t_thresh patlak_x) (pySliceFrom t_thresh patlak_y)

/-- `logan_analysis(...)`: Logan x/y coordinates sliced from the threshold
index and fed to the line fitter. -/
def logan_analysis (input_tac_values region_tac_values tac_times_in_minutes : List ℚ)
    (t_thresh_in_minutes : ℚ) : ℚ × ℚ :=
  let t_thresh := get_index_from_threshold tac_times_in_minutes t_thresh_in_minutes
  let logan_x := ewDiv (cumulative_trapezoidal_integral tac_times_in_minutes input_tac_values 0)
    region_tac_values
  let logan_y := ewDiv (cumulative_trapezoidal_integral tac_times_in_minutes region_tac_values 0)
    region_tac_values
  fit_line_to_data_using_lls (pySliceFrom t_thresh logan_x) (pySliceFrom t_thresh logan_y)

/-- `alternative_logan_analysis(...)`: alternative-Logan x/y coordinates
sliced from the threshold index and fed to the line fitter. -/
def alternative_logan_analysis (input_tac_values region_tac_values tac_times_in_minutes : List ℚ)
    (t_thresh_in_minutes : ℚ) : ℚ × ℚ :=
  let t_thresh := get_index_from_threshold tac_times_in_minutes t_thresh_in_minutes
  let alt_logan_x := ewDiv (cumulative_trapezoidal_integral tac_times_in_minutes input_tac_values 0)
    region_tac_values
  let alt_logan_y := ewDiv (cumulative_trapezoidal_integral tac_times_in_minutes region_tac_values 0)
    input_tac_values
  fit_line_to_data_using_lls (pySliceFrom t_thresh alt_logan_x) (pySliceFrom t_thresh alt_logan_y)

/-- The common signature of the three analysis functions. -/
abbrev AnalysisFn := List ℚ → List ℚ → List ℚ → ℚ → ℚ × ℚ

/-- `get_graphical_analysis_method(method_name)`: returns the analysis
function named by `method_name`, or raises
`ValueError(f"Invalid method_name! Must be either 'patlak', 'logan', or
'alt_logan'. Got {method_name}")` for any other name.  The raised `ValueError`
is embedded as an `Except.error` carrying the message. -/
def get_graphical_analysis_method (method_name : String) : Except String AnalysisFn :=
  if method_name = "patlak" then .ok patlak_analysis
  else if method_name = "logan" then .ok logan_analysis
  else if method_name = "alt_logan" then .ok alternative_logan_analysis
  else .error ("Invalid method_name! Must be either 'patlak', 'logan', or 'alt_logan'. Got "
    ++ method_name)

/-! Spec-side definitions.  The following definitions are transcribed from the
specification's words (the §4.4 method table and the §4.2 least-squares
contract), to be compared with the code-side definitions above. -/

/-- Spec §4.4 table, Patlak x sequence:
`cumulative_integral(times, input_values) / input_values` (elementwise). -/
def spec_patlak_x (times input_values : List ℚ) : List ℚ :=
  ewDiv (cumulative_trapezoidal_integral times input_values 0) input_values

/-- Spec §4.4 table, Patlak y sequence: `region_values / input_values`. -/
def spec_patlak_y (input_values region_values : List ℚ) : List ℚ :=
  ewDiv region_values input_values

/-- Spec §4.4 table, Logan x sequence:
`cumulative_integral(times, input_values) / region_values`. -/
def spec_logan_x (times input_values region_values : List ℚ) : List ℚ :=
  ewDiv (cumulative_trapezoidal_integral times input_values 0) region_values

/-- Spec §4.4 table, Logan y sequence:
`cumulative_integral(times, region_values) / region_values`. -/
def spec_logan_y (times region_values : List ℚ) : List ℚ :=
  ewDiv (cumulative_trapezoidal_integral times region_values 0) region_values

/-- Spec §4.4 table, alternative-Logan x sequence:
`cumulative_integral(times, input_values) / region_values`. -/
def spec_alt_logan_x (times input_values region_values : List ℚ) : List ℚ :=
  ewDiv (cumulative_trapezoidal_integral times input_values 0) region_values

/-- Spec §4.4 table, alternative-Logan y sequence:
`cumulative_integral(times, region_values) / input_values`. -/
def spec_alt_logan_y (times input_values region_values : List ℚ) : List ℚ :=
  ewDiv (cumulative_trapezoidal_integral times region_values 0) input_values

/-- Sum of squares of the entries of a list. -/
def sumSq (l : List ℚ) : ℚ :=
  (l.map fun a => a * a).sum

/-- Sum of the elementwise products of two lists. -/
def sumMul (l1 l2 : List ℚ) : ℚ :=
  (List.zipWith (fun a b => a * b) l1 l2).sum

/-- Sum of squared residuals of the line `y = m·x + b` on the paired data
`(xs, ys)`: the objective that an ordinary least-squares line fit minimises. -/
def sse (xs ys : List ℚ) (m b : ℚ) : ℚ :=
  (List.zipWith (fun x y => (y - (m * x + b)) ^ 2) xs ys).sum

/-! ### Helper lemmas about the embedded numpy primitives -/

theorem length_cumsumFrom (l : List ℚ) : ∀ acc : ℚ, (cumsumFrom acc l).length = l.length := by
  induction l with
  | nil => intro acc; rfl
  | cons a rest ih => intro acc; simp [cumsumFrom, ih]

theorem cumsumFrom_getElem? (l : List ℚ) :
    ∀ (acc : ℚ) (i : ℕ), i < l.length →
      (cumsumFrom acc l)[i]? = some (acc + (l.take (i + 1)).sum) := by
  induction l with
  | nil => intro acc i h; simp at h
  | cons a rest ih =>
    intro acc i h
    cases i with
    | zero => simp [cumsumFrom]
    | succ n =>
      have hn : n < rest.length := by simpa using h
      simp [cumsumFrom, ih (acc + a) n hn, add_assoc]

theorem npCumsum_getElem? (l : List ℚ) (i : ℕ) (h : i < l.length) :
    (npCumsum l)[i]? = some ((l.take (i + 1)).sum) := by
  simpa using cumsumFrom_getElem? l 0 i h

theorem length_trapezoidAreas (xdata ydata : List ℚ) (hlen : xdata.length = ydata.length) :
    (trapezoidAreas xdata ydata).length = xdata.length - 1 := by
  simp only [trapezoidAreas, npDiff, List.length_zipWith, List.length_tail, hlen]
  omega

theorem trapezoidAreas_getD (xs ys : List ℚ) (hlen : xs.length = ys.length)
    (j : ℕ) (hj : j + 1 < xs.length) :
    (trapezoidAreas xs ys).getD j 0 =
      (xs.getD (j + 1) 0 - xs.getD j 0) * (ys.getD (j + 1) 0 + ys.getD j 0) / 2 := by
  have hx : j < xs.length := Nat.lt_of_succ_lt hj
  have hy : j < ys.length := hlen ▸ hx
  have hy1 : j + 1 < ys.length := hlen ▸ hj
  have hxt : j < xs.tail.length := by simp [List.length_tail]; omega
  have hyt : j < ys.tail.length := by simp [List.length_tail]; omega
  simp [trapezoidAreas, npDiff, List.getElem?_zipWith, List.getElem?_tail,
    List.getElem?_eq_getElem, hx, hy, hy1, hj, hxt, hyt]

theorem cumtrapz_length (xs ys : List ℚ) (init : ℚ)
    (hlen : xs.length = ys.length) (hn : 1 ≤ xs.length) :
    (cumulative_trapezoidal_integral xs ys init).length = xs.length := by
  simp [cumulative_trapezoidal_integral, npCumsum, length_cumsumFrom,
    length_trapezoidAreas xs ys hlen]
  omega

theorem cumtrapz_getElem?_succ (xs ys : List ℚ) (init : ℚ) (i : ℕ)
    (h : i < (trapezoidAreas xs ys).length) :
    (cumulative_trapezoidal_integral xs ys init)[i + 1]? =
      some (((trapezoidAreas xs ys).take (i + 1)).sum) := by
  simp [cumulative_trapezoidal_integral, npCumsum_getElem? _ i h]

theorem sum_take_succ_getD (l : List ℚ) (k : ℕ) (hk : k < l.length) :
    (l.take (k + 1)).sum = (l.take k).sum + l.getD k 0 := by
  have := List.sum_take_succ l k hk
  simpa [List.getD_eq_getElem?_getD, List.getElem?_eq_getElem hk] using this

theorem init_le_foldl_max (l : List ℚ) : ∀ b : ℚ, b ≤ l.foldl max b := by
  induction l with
  | nil => intro b; exact le_refl b
  | cons a rest ih =>
    intro b; exact le_trans (le_max_left b a) (ih (max b a))

theorem le_foldl_max (l : List ℚ) :
    ∀ (b x : ℚ), x ∈ l → x ≤ l.foldl max b := by
  induction l with
  | nil => intro b x hx; simp at hx
  | cons a rest ih =>
    intro b x hx
    rcases List.mem_cons.mp hx with h | h
    · subst h
      exact le_trans (le_max_right b x) (init_le_foldl_max rest (max b x))
    · exact ih (max b a) x h

theorem foldl_max_choice (l : List ℚ) :
    ∀ b : ℚ, l.foldl max b = b ∨ l.foldl max b ∈ l := by
  induction l with
  | nil => intro b; exact Or.inl rfl
  | cons a rest ih =>
    intro b
    rcases ih (max b a) with h | h
    · rcases max_cases b a with ⟨he, _⟩ | ⟨he, _⟩
      · exact Or.inl (by simp [List.foldl_cons] at h ⊢; rw [h, he])
      · exact Or.inr (by simp [List.foldl_cons] at h ⊢; left; rw [h, he])
    · exact Or.inr (by simp [List.foldl_cons] at h ⊢; right; exact h)

theorem npMax_mem (xs : List ℚ) (hne : xs ≠ []) : npMax xs ∈ xs := by
  rcases foldl_max_choice xs (xs.headD 0) with h | h
  · rw [npMax, h]
    cases xs with
    | nil => exact absurd rfl hne
    | cons a rest => simp
  · exact h

theorem le_npMax (xs : List ℚ) (x : ℚ) (hx : x ∈ xs) : x ≤ npMax xs :=
  le_foldl_max xs (xs.headD 0) x hx

/-! ### Claim theorems -/

/-- C8: `cumulative_trapezoidal_integral` on the two-point input
`times = [0,1]`, `values = [2,4]` with `initial = 0` returns exactly `[0, 3]`,
the second entry being the trapezoid area `(1-0)*(2+4)/2`. -/
theorem cumtrapz_two_point_example :
    cumulative_trapezoidal_integral [0, 1] [2, 4] 0 = [0, 3] ∧
    (3 : ℚ) = (1 - 0) * (2 + 4) / 2 := by
  norm_num [cumulative_trapezoidal_integral, trapezoidAreas, npDiff, npCumsum, cumsumFrom]

/-- C2, counterexample: with `initial = 1` on `times = [0,1]`,
`values = [2,4]` the code returns `[1, 3]`: position 1 is the plain trapezoid
area `3`, not position 0 plus the area (`1 + 3 = 4`), so the claimed
recurrence `out[i] = out[i-1] + area` fails at `i = 1` for nonzero
`initial`. -/
theorem cumtrapz_initial_offset_counterexample :
    cumulative_trapezoidal_integral [0, 1] [2, 4] 1 = [1, 3] ∧
    (cumulative_trapezoidal_integral [0, 1] [2, 4] 1)[1]? ≠
      some ((cumulative_trapezoidal_integral [0, 1] [2, 4] 1).getD 0 0 +
        ((1 : ℚ) - 0) * (4 + 2) / 2) := by
  norm_num [cumulative_trapezoidal_integral, trapezoidAreas, npDiff, npCumsum, cumsumFrom]

/-- C1: on `times = [0,1,2]` with `t_thresh = 5` the threshold index is the
sentinel `-1`, and none of the three method transforms fails or returns
early: each slices its coordinate sequences from index `-1` — Python slicing
yields the one-element tail — and returns the least-squares line fit of that
single point (for Patlak, the fit of `x = [2]`, `y = [3]`, giving
`(6/5, 3/5)`). -/
theorem sentinel_slice_fits_one_element_tail :
    get_index_from_threshold [0, 1, 2] 5 = -1 ∧
    (pySliceFrom (get_index_from_threshold [0, 1, 2] 5)
      (calculate_patlak_x [0, 1, 2] [1, 1, 1])).length = 1 ∧
    patlak_analysis [1, 1, 1] [1, 2, 3] [0, 1, 2] 5 =
      fit_line_to_data_using_lls [2] [3] ∧
    logan_analysis [1, 1, 1] [1, 2, 3] [0, 1, 2] 5 =
      fit_line_to_data_using_lls [2 / 3] [4 / 3] ∧
    alternative_logan_analysis [1, 1, 1] [1, 2, 3] [0, 1, 2] 5 =
      fit_line_to_data_using_lls [2 / 3] [4] ∧
    patlak_analysis [1, 1, 1] [1, 2, 3] [0, 1, 2] 5 = (6 / 5, 3 / 5) := by
  norm_num [patlak_analysis, logan_analysis, alternative_logan_analysis, calculate_patlak_x,
    cumulative_trapezoidal_integral, trapezoidAreas, npDiff, npCumsum, cumsumFrom, ewDiv,
    get_index_from_threshold, npMax, pySliceFrom, fit_line_to_data_using_lls, np_linalg_lstsq,
    _line_fitting_make_rhs_matrix_from_xdata, List.find?, Int.toNat]

/-- C3: each method transform builds its coordinate sequences exactly as the
spec's method table specifies, slices both from the threshold index to the
end, and returns the least-squares line fit of the slices. -/
theorem method_transforms_match_spec_table
    (input_values region_values times : List ℚ) (t_thresh : ℚ) :
    patlak_analysis input_values region_values times t_thresh =
      fit_line_to_data_using_lls
        (pySliceFrom (get_index_from_threshold times t_thresh)
          (spec_patlak_x times input_values))
        (pySliceFrom (get_index_from_threshold times t_thresh)
          (spec_patlak_y input_values region_values)) ∧
    logan_analysis input_values region_values times t_thresh =
      fit_line_to_data_using_lls
        (pySliceFrom (get_index_from_threshold times t_thresh)
          (spec_logan_x times input_values region_values))
        (pySliceFrom (get_index_from_threshold times t_thresh)
          (spec_logan_y times region_values)) ∧
    alternative_logan_analysis input_values region_values times t_thresh =
      fit_line_to_data_using_lls
        (pySliceFrom (get_index_from_threshold times t_thresh)
          (spec_alt_logan_x times input_values region_values))
        (pySliceFrom (get_index_from_threshold times t_thresh)
          (spec_alt_logan_y times input_values region_values)) :=
  ⟨rfl, rfl, rfl⟩

/-- C6: applying the function returned by `get_graphical_analysis_method` to
any inputs produces exactly the result of the matching analysis function on
the same inputs — the dispatcher is a pure pass-through. -/
theorem dispatcher_pass_through
    (input_values region_values times : List ℚ) (t_thresh : ℚ) :
    (get_graphical_analysis_method "patlak").map
        (fun f => f input_values region_values times t_thresh) =
      .ok (patlak_analysis input_values region_values times t_thresh) ∧
    (get_graphical_analysis_method "logan").map
        (fun f => f input_values region_values times t_thresh) =
      .ok (logan_analysis input_values region_values times t_thresh) ∧
    (get_graphical_analysis_method "alt_logan").map
        (fun f => f input_values region_values times t_thresh) =
      .ok (alternative_logan_analysis input_values region_values times t_thresh) :=
  ⟨rfl, rfl, rfl⟩

/-- C4: on a non-empty ascending `times` array, `get_index_from_threshold`
returns the smallest index whose time is `≥ t_thresh` when one exists, and
the sentinel `-1` when the threshold exceeds every element. -/
theorem get_index_from_threshold_correct (times : List ℚ) (t : ℚ)
    (hne : times ≠ []) (_hsorted : times.Sorted (· ≤ ·)) :
    ((∃ i, i < times.length ∧ t ≤ times.getD i 0) →
      ∃ i, i < times.length ∧ get_index_from_threshold times t = (i : Int) ∧
        t ≤ times.getD i 0 ∧ ∀ j, j < i → times.getD j 0 < t) ∧
    ((∀ i, i < times.length → times.getD i 0 < t) →
      get_index_from_threshold times t = -1) := by
  constructor
  · rintro ⟨i, hi, hti⟩
    have hgd : times.getD i 0 = times[i] := by
      simp [List.getD_eq_getElem?_getD, List.getElem?_eq_getElem hi]
    have hle : t ≤ npMax times := by
      refine le_trans hti ?_
      rw [hgd]
      exact le_npMax times times[i] (List.getElem_mem hi)
    have hcond : ¬ (t > npMax times) := not_lt.mpr hle
    have hex : ∃ x ∈ times, (fun x => decide (t ≤ x)) x = true :=
      ⟨times[i], List.getElem_mem hi, by simp; rw [← hgd]; exact hti⟩
    have hk : times.findIdx (fun x => decide (t ≤ x)) < times.length :=
      List.findIdx_lt_length_of_exists hex
    refine ⟨times.findIdx (fun x => decide (t ≤ x)), hk, ?_, ?_, ?_⟩
    · simp [get_index_from_threshold, hcond]
    · have hpk := List.findIdx_getElem (p := fun x => decide (t ≤ x)) (w := hk)
      have h2 : t ≤ times[times.findIdx (fun x => decide (t ≤ x))] := by
        simpa using hpk
      simpa [List.getD_eq_getElem?_getD, List.getElem?_eq_getElem hk] using h2
    · intro j hj
      have hjlen : j < times.length := lt_trans hj hk
      have hpf := List.not_of_lt_findIdx (p := fun x => decide (t ≤ x)) (i := j) hj
      have h3 : ¬ t ≤ times[j] := by simpa using hpf
      have h4 : times[j] < t := not_le.mp h3
      simpa [List.getD_eq_getElem?_getD, List.getElem?_eq_getElem hjlen] using h4
  · intro hall
    have hmem := npMax_mem times hne
    obtain ⟨i, hi, hgi⟩ := List.getElem_of_mem hmem
    have hlt : npMax times < t := by
      have h5 := hall i hi
      rw [List.getD_eq_getElem?_getD, List.getElem?_eq_getElem hi] at h5
      simpa [hgi] using h5
    simp [get_index_from_threshold, hlt]

/-- C4 witness: `get_index_from_threshold([0,1,2,3], 3/2)` is the smallest
index `i` with `times[i] ≥ 3/2` (namely `2`), and
`get_index_from_threshold([0,1,2], 5)` is `-1`. -/
theorem get_index_from_threshold_correct_witness :
    (∃ i, i < ([0, 1, 2, 3] : List ℚ).length ∧
      get_index_from_threshold [0, 1, 2, 3] (3 / 2) = (i : Int) ∧
      (3 / 2 : ℚ) ≤ ([0, 1, 2, 3] : List ℚ).getD i 0 ∧
      ∀ j, j < i → ([0, 1, 2, 3] : List ℚ).getD j 0 < 3 / 2) ∧
    get_index_from_threshold [0, 1, 2] 5 = -1 := by
  constructor
  · exact (get_index_from_threshold_correct [0, 1, 2, 3] (3 / 2) (by simp)
      (by norm_num [List.sorted_cons])).1
      ⟨2, by norm_num, by norm_num [List.getD]⟩
  · refine (get_index_from_threshold_correct [0, 1, 2] 5 (by simp)
      (by norm_num [List.sorted_cons])).2 ?_
    intro i hi
    simp only [List.length_cons, List.length_nil] at hi
    interval_cases i <;> norm_num [List.getD]

/-- C10: when the threshold does not exceed the maximum sample time, some
index satisfies `times[i] ≥ t_thresh`, and `get_index_from_threshold` returns
a valid index in `[0, length)`; the sentinel branch is not taken. -/
theorem threshold_index_in_bounds (times : List ℚ) (t : ℚ)
    (hne : times ≠ []) (hle : t ≤ npMax times) :
    (∃ i, i < times.length ∧ t ≤ times.getD i 0) ∧
    0 ≤ get_index_from_threshold times t ∧
    get_index_from_threshold times t < (times.length : Int) := by
  have hmem := npMax_mem times hne
  obtain ⟨i, hi, hgi⟩ := List.getElem_of_mem hmem
  have hex : ∃ x ∈ times, (fun x => decide (t ≤ x)) x = true :=
    ⟨npMax times, hmem, by simp [hle]⟩
  have hk := List.findIdx_lt_length_of_exists hex
  have hcond : ¬ (t > npMax times) := not_lt.mpr hle
  refine ⟨⟨i, hi, ?_⟩, ?_, ?_⟩
  · rw [List.getD_eq_getElem?_getD, List.getElem?_eq_getElem hi]
    simpa [hgi] using hle
  · simp [get_index_from_threshold, hcond]
  · simp only [get_index_from_threshold, hcond, if_false]
    exact_mod_cast hk

/-- C10 witness: on `times = [0,1,2]` with `t_thresh = 1` the match set is
non-empty and the returned index lies in `[0, 3)`. -/
theorem threshold_index_in_bounds_witness :
    (∃ i, i < ([0, 1, 2] : List ℚ).length ∧ (1 : ℚ) ≤ ([0, 1, 2] : List ℚ).getD i 0) ∧
    0 ≤ get_index_from_threshold [0, 1, 2] 1 ∧
    get_index_from_threshold [0, 1, 2] 1 < (([0, 1, 2] : List ℚ).length : Int) :=
  threshold_index_in_bounds [0, 1, 2] 1 (by simp)
    (by norm_num [npMax, List.foldl, max_def])

/-- C5: `get_graphical_analysis_method` succeeds exactly on the three names
`"patlak"`, `"logan"` and `"alt_logan"`, returning the corresponding analysis
function, and fails on every other name with an error message carrying the
offending name, performing no partial computation. -/
theorem dispatcher_validates_method_name (method_name : String) :
    (method_name = "patlak" →
      get_graphical_analysis_method method_name = .ok patlak_analysis) ∧
    (method_name = "logan" →
      get_graphical_analysis_method method_name = .ok logan_analysis) ∧
    (method_name = "alt_logan" →
      get_graphical_analysis_method method_name = .ok alternative_logan_analysis) ∧
    (¬(method_name = "patlak" ∨ method_name = "logan" ∨ method_name = "alt_logan") →
      get_graphical_analysis_method method_name =
        .error ("Invalid method_name! Must be either 'patlak', 'logan', or 'alt_logan'. Got "
          ++ method_name)) := by
  refine ⟨?_, ?_, ?_, ?_⟩ <;> intro h
  · simp [get_graphical_analysis_method, h]
  · simp [get_graphical_analysis_method, h]
  · simp [get_graphical_analysis_method, h]
  · push_neg at h
    obtain ⟨h1, h2, h3⟩ := h
    simp [get_graphical_analysis_method, h1, h2, h3]

/-- C5 witness: the name `"bogus"` is rejected with an error carrying
`"bogus"`, and `"patlak"` is accepted with `patlak_analysis`. -/
theorem dispatcher_validates_method_name_witness :
    get_graphical_analysis_method "bogus" =
      .error ("Invalid method_name! Must be either 'patlak', 'logan', or 'alt_logan'. Got "
        ++ "bogus") ∧
    get_graphical_analysis_method "patlak" = .ok patlak_analysis :=
  ⟨(dispatcher_validates_method_name "bogus").2.2.2 (by simp),
    (dispatcher_validates_method_name "patlak").1 rfl⟩

theorem trapezoidAreas_take_sum (xs ys : List ℚ) (hlen : xs.length = ys.length) :
    ∀ k, k + 1 ≤ xs.length →
      ((trapezoidAreas xs ys).take k).sum =
        ((List.range k).map (fun j =>
          (xs.getD (j + 1) 0 - xs.getD j 0) * (ys.getD (j + 1) 0 + ys.getD j 0) / 2)).sum := by
  intro k
  induction k with
  | zero => intro _; simp
  | succ n ih =>
    intro hk
    have hn : n < (trapezoidAreas xs ys).length := by
      rw [length_trapezoidAreas xs ys hlen]; omega
    rw [sum_take_succ_getD _ n hn, ih (by omega), List.range_succ, List.map_append,
      List.sum_append, trapezoidAreas_getD xs ys hlen n (by omega)]
    simp

/-- C2, amended: position 0 of `cumulative_trapezoidal_integral` equals
`initial`; position 1 equals the first trapezoidal area with no `initial`
offset added; and the claimed recurrence `out[i] = out[i-1] + area(i)` holds
for every `i ≥ 2` — the recurrence fails at `i = 1` whenever
`initial ≠ 0` because the code never adds `initial` into the cumulative
sums. -/
theorem cumtrapz_amended (xs ys : List ℚ) (init : ℚ)
    (hlen : xs.length = ys.length) (hn : 1 ≤ xs.length) :
    (cumulative_trapezoidal_integral xs ys init).length = xs.length ∧
    (cumulative_trapezoidal_integral xs ys init)[0]? = some init ∧
    (1 < xs.length →
      (cumulative_trapezoidal_integral xs ys init)[1]? =
        some ((xs.getD 1 0 - xs.getD 0 0) * (ys.getD 1 0 + ys.getD 0 0) / 2)) ∧
    (∀ i, 1 ≤ i → i + 1 < xs.length →
      (cumulative_trapezoidal_integral xs ys init)[i + 1]? =
        some ((cumulative_trapezoidal_integral xs ys init).getD i 0 +
          (xs.getD (i + 1) 0 - xs.getD i 0) * (ys.getD (i + 1) 0 + ys.getD i 0) / 2)) := by
  refine ⟨cumtrapz_length xs ys init hlen hn, by simp [cumulative_trapezoidal_integral], ?_, ?_⟩
  · intro h1
    have h0 : 0 < (trapezoidAreas xs ys).length := by
      rw [length_trapezoidAreas xs ys hlen]; omega
    rw [cumtrapz_getElem?_succ xs ys init 0 h0,
      show ((trapezoidAreas xs ys).take 1).sum = (trapezoidAreas xs ys).getD 0 0 from by
        simpa using sum_take_succ_getD _ 0 h0,
      trapezoidAreas_getD xs ys hlen 0 (by omega)]
  · intro i h1 hi
    have hiA : i < (trapezoidAreas xs ys).length := by
      rw [length_trapezoidAreas xs ys hlen]; omega
    obtain ⟨k, rfl⟩ : ∃ k, i = k + 1 := ⟨i - 1, by omega⟩
    have hkA : k < (trapezoidAreas xs ys).length := by omega
    have hgd : (cumulative_trapezoidal_integral xs ys init).getD (k + 1) 0 =
        ((trapezoidAreas xs ys).take (k + 1)).sum := by
      rw [List.getD_eq_getElem?_getD, cumtrapz_getElem?_succ xs ys init k hkA]
      rfl
    rw [cumtrapz_getElem?_succ xs ys init (k + 1) hiA, hgd,
      sum_take_succ_getD _ (k + 1) hiA,
      trapezoidAreas_getD xs ys hlen (k + 1) (by omega)]

/-- C2 witness: on `times = [0,1,3]`, `values = [2,4,6]` with `initial = 5`
the output has length 3, starts with `5`, has the first area `3` (with no
offset) at position 1, and satisfies the recurrence at position 2. -/
theorem cumtrapz_amended_witness :
    (cumulative_trapezoidal_integral [0, 1, 3] [2, 4, 6] 5).length = 3 ∧
    (cumulative_trapezoidal_integral [0, 1, 3] [2, 4, 6] 5)[0]? = some 5 ∧
    (cumulative_trapezoidal_integral [0, 1, 3] [2, 4, 6] 5)[1]? =
      some ((([0, 1, 3] : List ℚ).getD 1 0 - ([0, 1, 3] : List ℚ).getD 0 0) *
        (([2, 4, 6] : List ℚ).getD 1 0 + ([2, 4, 6] : List ℚ).getD 0 0) / 2) ∧
    (cumulative_trapezoidal_integral [0, 1, 3] [2, 4, 6] 5)[2]? =
      some ((cumulative_trapezoidal_integral [0, 1, 3] [2, 4, 6] 5).getD 1 0 +
        (([0, 1, 3] : List ℚ).getD 2 0 - ([0, 1, 3] : List ℚ).getD 1 0) *
          (([2, 4, 6] : List ℚ).getD 2 0 + ([2, 4, 6] : List ℚ).getD 1 0) / 2) :=
  ⟨(cumtrapz_amended [0, 1, 3] [2, 4, 6] 5 rfl (by norm_num)).1,
    (cumtrapz_amended [0, 1, 3] [2, 4, 6] 5 rfl (by norm_num)).2.1,
    (cumtrapz_amended [0, 1, 3] [2, 4, 6] 5 rfl (by norm_num)).2.2.1 (by norm_num),
    (cumtrapz_amended [0, 1, 3] [2, 4, 6] 5 rfl (by norm_num)).2.2.2 1 (by norm_num)
      (by norm_num)⟩

/-- C9: the `initial` argument of `cumulative_trapezoidal_integral`
influences only position 0: outputs for two different initial values agree at
every position `i ≥ 1`, and every position `i ≥ 1` equals the plain
cumulative sum of the first `i` trapezoid areas with no initial offset. -/
theorem cumtrapz_initial_noninterference (xs ys : List ℚ) (a b : ℚ)
    (hlen : xs.length = ys.length) (_hn : 2 ≤ xs.length) :
    (∀ i, 1 ≤ i →
      (cumulative_trapezoidal_integral xs ys a)[i]? =
        (cumulative_trapezoidal_integral xs ys b)[i]?) ∧
    (∀ i, i + 1 < xs.length →
      (cumulative_trapezoidal_integral xs ys a)[i + 1]? =
        some (((List.range (i + 1)).map (fun j =>
          (xs.getD (j + 1) 0 - xs.getD j 0) * (ys.getD (j + 1) 0 + ys.getD j 0) / 2)).sum)) := by
  constructor
  · intro i h1
    obtain ⟨k, rfl⟩ : ∃ k, i = k + 1 := ⟨i - 1, by omega⟩
    simp [cumulative_trapezoidal_integral]
  · intro i hi
    have hiA : i < (trapezoidAreas xs ys).length := by
      rw [length_trapezoidAreas xs ys hlen]; omega
    rw [cumtrapz_getElem?_succ xs ys a i hiA,
      trapezoidAreas_take_sum xs ys hlen (i + 1) (by omega)]

/-- C9 witness: with `times = [0,1,3]`, `values = [2,4,6]`, the outputs for
`initial = 0` and `initial = 7` agree at position 1, and position 2 is the
plain sum of the first two trapezoid areas. -/
theorem cumtrapz_initial_noninterference_witness :
    (cumulative_trapezoidal_integral [0, 1, 3] [2, 4, 6] 0)[1]? =
      (cumulative_trapezoidal_integral [0, 1, 3] [2, 4, 6] 7)[1]? ∧
    (cumulative_trapezoidal_integral [0, 1, 3] [2, 4, 6] 0)[2]? =
      some (((List.range 2).map (fun j =>
        (([0, 1, 3] : List ℚ).getD (j + 1) 0 - ([0, 1, 3] : List ℚ).getD j 0) *
          (([2, 4, 6] : List ℚ).getD (j + 1) 0 + ([2, 4, 6] : List ℚ).getD j 0) / 2)).sum) :=
  ⟨(cumtrapz_initial_noninterference [0, 1, 3] [2, 4, 6] 0 7 rfl (by norm_num)).1 1
      (by norm_num),
    (cumtrapz_initial_noninterference [0, 1, 3] [2, 4, 6] 0 7 rfl (by norm_num)).2 1
      (by norm_num)⟩

theorem sumSq_cons (x : ℚ) (l : List ℚ) : sumSq (x :: l) = x * x + sumSq l := by
  simp [sumSq]

theorem sumMul_cons (x y : ℚ) (xs ys : List ℚ) :
    sumMul (x :: xs) (y :: ys) = x * y + sumMul xs ys := by
  simp [sumMul]

theorem sse_cons (x y m b : ℚ) (xs ys : List ℚ) :
    sse (x :: xs) (y :: ys) m b = (y - (m * x + b)) ^ 2 + sse xs ys m b := by
  simp [sse]

theorem sumSq_nonneg (l : List ℚ) : 0 ≤ sumSq l := by
  induction l with
  | nil => simp [sumSq]
  | cons x xs ih => rw [sumSq_cons]; exact add_nonneg (mul_self_nonneg x) ih

theorem map_sum_eq_range_sum (f : ℚ → ℚ) (l : List ℚ) :
    (l.map f).sum = ∑ i ∈ Finset.range l.length, f (l.getD i 0) := by
  induction l with
  | nil => simp
  | cons x xs ih =>
    rw [List.map_cons, List.sum_cons, List.length_cons, Finset.sum_range_succ']
    simp [ih, add_comm]

theorem list_sum_eq_range_sum (l : List ℚ) :
    l.sum = ∑ i ∈ Finset.range l.length, l.getD i 0 := by
  simpa using map_sum_eq_range_sum (fun a => a) l

theorem sq_sum_le_length_mul_sumSq (l : List ℚ) :
    l.sum ^ 2 ≤ (l.length : ℚ) * sumSq l := by
  have h := sq_sum_le_card_mul_sum_sq (s := Finset.range l.length)
    (f := fun i => l.getD i 0)
  rw [Finset.card_range] at h
  have h1 : sumSq l = ∑ i ∈ Finset.range l.length, (l.getD i 0) ^ 2 := by
    simpa [sq] using map_sum_eq_range_sum (fun a => a * a) l
  rw [list_sum_eq_range_sum, h1]
  exact h

theorem rows_saa (xs : List ℚ) :
    ((_line_fitting_make_rhs_matrix_from_xdata xs).map fun r => r.1 * r.1).sum = sumSq xs := by
  simp [_line_fitting_make_rhs_matrix_from_xdata, List.map_map, sumSq, Function.comp_def]

theorem rows_sab (xs : List ℚ) :
    ((_line_fitting_make_rhs_matrix_from_xdata xs).map fun r => r.1 * r.2).sum = xs.sum := by
  simp [_line_fitting_make_rhs_matrix_from_xdata, List.map_map, Function.comp_def, List.map_id']

theorem rows_sbb (xs : List ℚ) :
    ((_line_fitting_make_rhs_matrix_from_xdata xs).map fun r => r.2 * r.2).sum =
      (xs.length : ℚ) := by
  simp [_line_fitting_make_rhs_matrix_from_xdata, List.map_map, Function.comp_def,
    List.map_const', List.sum_replicate, nsmul_eq_mul]

theorem rows_say (xs ys : List ℚ) :
    (List.zipWith (fun r y => r.1 * y)
      (_line_fitting_make_rhs_matrix_from_xdata xs) ys).sum = sumMul xs ys := by
  simp [_line_fitting_make_rhs_matrix_from_xdata, List.zipWith_map_left, sumMul]

theorem zipWith_right_proj (xs : List ℚ) :
    ∀ ys : List ℚ, xs.length = ys.length →
      List.zipWith (fun _ y => y) xs ys = ys := by
  induction xs with
  | nil =>
    intro ys h
    cases ys with
    | nil => rfl
    | cons y ys => simp at h
  | cons x xs ih =>
    intro ys h
    cases ys with
    | nil => simp at h
    | cons y ys => simp [ih ys (by simpa using h)]

theorem rows_sby (xs ys : List ℚ) (h : xs.length = ys.length) :
    (List.zipWith (fun r y => r.2 * y)
      (_line_fitting_make_rhs_matrix_from_xdata xs) ys).sum = ys.sum := by
  rw [show (List.zipWith (fun r y => r.2 * y)
      (_line_fitting_make_rhs_matrix_from_xdata xs) ys) =
      List.zipWith (fun _ y => y) xs ys from by
    simp [_line_fitting_make_rhs_matrix_from_xdata, List.zipWith_map_left]]
  rw [zipWith_right_proj xs ys h]

theorem sse_expand (xs : List ℚ) : ∀ ys : List ℚ, xs.length = ys.length → ∀ m b : ℚ,
    sse xs ys m b = sumSq ys - 2 * m * sumMul xs ys - 2 * b * ys.sum
      + m ^ 2 * sumSq xs + 2 * m * b * xs.sum + b ^ 2 * (xs.length : ℚ) := by
  induction xs with
  | nil =>
    intro ys h m b
    cases ys with
    | nil => simp [sse, sumSq, sumMul]
    | cons y ys => simp at h
  | cons x xs ih =>
    intro ys h m b
    cases ys with
    | nil => simp at h
    | cons y ys =>
      have hlen : xs.length = ys.length := by simpa using h
      simp only [sse_cons, sumSq_cons, sumMul_cons, List.sum_cons, List.length_cons]
      rw [ih ys hlen m b]
      push_cast
      ring

theorem quad_nonneg (A B C u v : ℚ) (hC : 0 < C) (hD : 0 ≤ A * C - B * B) :
    0 ≤ A * u ^ 2 + 2 * B * u * v + C * v ^ 2 := by
  nlinarith [sq_nonneg (C * v + B * u), mul_nonneg hD (sq_nonneg u)]

/-- C7: `fit_line_to_data_using_lls` forms the design matrix `[x | 1]` and
returns the ordinary least-squares solution: whenever the normal-equation
determinant is nonzero, the returned `(slope, intercept)` minimises the sum
of squared residuals over all lines, and on the perfectly linear data
`xdata = [0,1,2,3]`, `ydata = [1,3,5,7]` it returns slope `2` and
intercept `1`. -/
theorem fit_line_least_squares_optimal (xs ys : List ℚ)
    (hlen : xs.length = ys.length)
    (hd : (xs.length : ℚ) * sumSq xs - xs.sum * xs.sum ≠ 0) :
    (∀ m b : ℚ,
      sse xs ys (fit_line_to_data_using_lls xs ys).1 (fit_line_to_data_using_lls xs ys).2 ≤
        sse xs ys m b) ∧
    fit_line_to_data_using_lls [0, 1, 2, 3] [1, 3, 5, 7] = (2, 1) := by
  constructor
  · intro m b
    have hd' : sumSq xs * (xs.length : ℚ) - xs.sum * xs.sum ≠ 0 := by
      rw [mul_comm]; exact hd
    have hfit : fit_line_to_data_using_lls xs ys =
        ((sumMul xs ys * (xs.length : ℚ) - ys.sum * xs.sum) /
            (sumSq xs * (xs.length : ℚ) - xs.sum * xs.sum),
          (sumSq xs * ys.sum - xs.sum * sumMul xs ys) /
            (sumSq xs * (xs.length : ℚ) - xs.sum * xs.sum)) := by
      rw [fit_line_to_data_using_lls]
      simp only [np_linalg_lstsq, rows_saa, rows_sab, rows_sbb, rows_say,
        rows_sby xs ys hlen]
      rw [if_neg hd']
    set n : ℚ := (xs.length : ℚ) with hn
    set S1 := xs.sum with hS1
    set S2 := sumSq xs with hS2
    set Sxy := sumMul xs ys with hSxy
    set Sy := ys.sum with hSy
    set D := S2 * n - S1 * S1 with hD
    set mh := (Sxy * n - Sy * S1) / D with hmh
    set bh := (S2 * Sy - S1 * Sxy) / D with hbh
    have hne1 : S2 * mh + S1 * bh = Sxy := by
      rw [hmh, hbh]
      field_simp
      ring
    have hne2 : S1 * mh + n * bh = Sy := by
      rw [hmh, hbh]
      field_simp
      ring
    have hkey : sse xs ys m b = sse xs ys mh bh +
        (S2 * (m - mh) ^ 2 + 2 * S1 * (m - mh) * (b - bh) + n * (b - bh) ^ 2) := by
      rw [sse_expand xs ys hlen m b, sse_expand xs ys hlen mh bh]
      linear_combination (2 * (m - mh)) * hne1 + (2 * (b - bh)) * hne2
    have hD_nonneg : 0 ≤ D := by
      have hcs := sq_sum_le_length_mul_sumSq xs
      rw [hD, hS2, hS1, hn]
      nlinarith [hcs]
    have hD_pos : 0 < D := lt_of_le_of_ne hD_nonneg (Ne.symm hd')
    have hn_pos : 0 < n := by
      have h1 : 0 ≤ S2 := sumSq_nonneg xs
      have h2 : 0 ≤ n := by rw [hn]; exact Nat.cast_nonneg _
      nlinarith [hD_pos, h1, h2, sq_nonneg S1]
    have hQ : 0 ≤ S2 * (m - mh) ^ 2 + 2 * S1 * (m - mh) * (b - bh) + n * (b - bh) ^ 2 :=
      quad_nonneg S2 S1 n (m - mh) (b - bh) hn_pos (le_of_lt hD_pos)
    rw [hfit]
    show sse xs ys mh bh ≤ sse xs ys m b
    rw [hkey]
    linarith [hQ]
  · norm_num [fit_line_to_data_using_lls, np_linalg_lstsq,
      _line_fitting_make_rhs_matrix_from_xdata, List.find?]


/-- C7 witness: on `[0,1,2,3]`, `[1,3,5,7]` the fitted line's squared error
is no larger than that of the line `y = 3x + 0`, and the fit is `(2, 1)`. -/
theorem fit_line_least_squares_optimal_witness :
    sse [0, 1, 2, 3] [1, 3, 5, 7]
        (fit_line_to_data_using_lls [0, 1, 2, 3] [1, 3, 5, 7]).1
        (fit_line_to_data_using_lls [0, 1, 2, 3] [1, 3, 5, 7]).2 ≤
      sse [0, 1, 2, 3] [1, 3, 5, 7] 3 0 ∧
    fit_line_to_data_using_lls [0, 1, 2, 3] [1, 3, 5, 7] = (2, 1) :=
  ⟨(fit_line_least_squares_optimal [0, 1, 2, 3] [1, 3, 5, 7] rfl
      (by norm_num [sumSq])).1 3 0,
    (fit_line_least_squares_optimal [0, 1, 2, 3] [1, 3, 5, 7] rfl
      (by norm_num [sumSq])).2⟩

end PETProcessing
